import Mathlib

/-!
# EternityVoxelEngine: terrain octree, queue helper, terrain defaults, transform matrix

A shallow embedding of the parts of the engine the properties below are about.

* `src/engine/game/eve_terrain.hpp` gives the `octreeOffsets` table, the default
  member initialisers of `EveTerrain` and the signatures of `queryTerrain`,
  `changeTerrain`, `changeOctantTerrain` and `pushIfUnique`.  The bodies of those
  four functions and the `Octant` / `Chunk` types (`eve_terrain.cpp`,
  `eve_chunk.hpp`) are not part of the source tree; their embeddings are
  marked `Modelled from the spec:` and follow section 3 and 4.1 of the
  specification.
* `src/engine/eve_game_object.hpp` gives `TransformComponent::mat4` and, like
  `src/engine/game/eve_game_object.hpp`, `EveGameObject::createGameObject`.
* `src/engine/rendering/eve_descriptors.cpp` gives the descriptor set layout
  builder, the descriptor pool and the descriptor writer.  The Vulkan driver
  calls are arguments of the functions that make them.

Pointers (`Chunk*`, `EveVoxel*`) are natural numbers compared by equality, which
is pointer identity.  Functions that mutate their argument return the new value.
-/

namespace eve

/-! ## Definitions -/

/-- Integer 3-vector, `glm::ivec3`. -/
structure IVec3 where
  x : Int
  y : Int
  z : Int
deriving DecidableEq, Repr

/-- Component-wise difference of two `glm::ivec3`. -/
def IVec3.sub (a b : IVec3) : IVec3 := ⟨a.x - b.x, a.y - b.y, a.z - b.z⟩

/-- Member data of `class EveTerrain` with the default member initialisers of
`eve_terrain.hpp` (lines 54, 63-67, 82-91).  `poolThreads` is the argument of
`EveThreadPool pool{12}`; the queues hold chunk pointers. -/
structure EveTerrain where
  chunkCount : Nat := 0
  remeshingCandidates : List Nat := []
  remeshingProcessing : List Nat := []
  remeshingProcessed : List Nat := []
  noisingQueue : List Nat := []
  seed : Nat := 123456
  seaLevel : Int := 0
  maxHeight : Int := -24
  minHeight : Int := 24
  shouldReset : Bool := false
  poolThreads : Nat := 12
deriving DecidableEq, Repr

namespace EveTerrain

/-- The table `EveTerrain::octreeOffsets` (`eve_terrain.hpp` lines 71-80), in the
order of the source. -/
def octreeOffsets : List IVec3 :=
  [ ⟨-1, -1, -1⟩,
    ⟨-1, -1, 1⟩,
    ⟨1, -1, -1⟩,
    ⟨1, -1, 1⟩,
    ⟨-1, 1, -1⟩,
    ⟨-1, 1, 1⟩,
    ⟨1, 1, -1⟩,
    ⟨1, 1, 1⟩ ]

/-- The member initialisers of `EveTerrain` as run for a host that reports
`hardwareConcurrency` hardware threads: none of them reads that value, the pool
is built from the literal `12`. -/
def construct (_hardwareConcurrency : Nat) : EveTerrain := {}

/-- Position of a sign triple computed from its components:
`4*[sy = 1] + 2*[sx = 1] + [sz = 1]`. -/
def signIndex (sx sy sz : Int) : Nat :=
  4 * (if sy = 1 then 1 else 0) + 2 * (if sx = 1 then 1 else 0) + (if sz = 1 then 1 else 0)

/-- Modelled from the spec: the sign of one axis offset of a point relative to a
node's centre, with the tie-break of section 4.1, "zero treated as positive". -/
def axisSign (a : Int) : Int := if 0 ≤ a then 1 else -1

/-- Modelled from the spec: the sign triple of a node-local point. -/
def signVec (p : IVec3) : IVec3 := ⟨axisSign p.x, axisSign p.y, axisSign p.z⟩

/-- Modelled from the spec: the child selection of `queryTerrain` and
`changeOctantTerrain` (bodies not in the source tree): "the child whose
octant-offset sign matches the sign of point relative to the node's center".
The child is looked up in the `octreeOffsets` table of the source. -/
def childIndex (p : IVec3) : Fin 8 :=
  ⟨octreeOffsets.indexOf (signVec p), by
    unfold signVec axisSign
    split_ifs <;> decide⟩

/-- Modelled from the spec: `Octant` (`eve_chunk.hpp`, not in the source tree),
section 3: a node is either a leaf holding one voxel reference or an internal
node holding exactly 8 child octants, one per `octreeOffsets` direction. -/
inductive Octant where
  | leaf (voxel : Nat)
  | node (octants : Fin 8 → Octant)

/-- Voxel reference of a leaf, nothing for an internal node. -/
def Octant.voxel? : Octant → Option Nat
  | .leaf v => some v
  | .node _ => none

/-- Whether the octant is a leaf. -/
def Octant.isLeaf : Octant → Bool
  | .leaf _ => true
  | .node _ => false

/-- Depth of the subtree below an octant: 0 for a leaf, one more than the
deepest child for an internal node. -/
def Octant.depth : Octant → Nat
  | .leaf _ => 0
  | .node octants => 1 + Finset.univ.sup (fun i => (octants i).depth)

/-- Modelled from the spec: `EveTerrain::queryTerrain(node, depth, queryPoint)`
(declared `eve_terrain.hpp` line 34, body not in the source tree), section 4.1:
descends from `node`, at each internal level selecting the child whose offset
sign matches the sign of the node-local point, until `depth` reaches zero or a
leaf is reached, and returns the octant it stops at.

The source keeps the size of a node inside the `Octant`; here it is the
argument `h`, the number of levels between the node and the maximum depth.  A
point is node-local, so on the way to a child it is re-expressed relative to
that child; the spec does not say how, so the conversion `toChild` (node height,
child index, point) is an argument and nothing below depends on its choice. -/
def queryTerrain (toChild : Nat → Fin 8 → IVec3 → IVec3) (h : Nat) (node : Octant)
    (depth : Nat) (queryPoint : IVec3) : Octant :=
  match depth, node with
  | 0, _ => node
  | _ + 1, .leaf _ => node
  | d + 1, .node octants =>
      queryTerrain toChild (h - 1) (octants (childIndex queryPoint)) d
        (toChild h (childIndex queryPoint) queryPoint)

/-- Modelled from the spec: `EveTerrain::changeOctantTerrain(node, queryPoint, voxel)`
(declared `eve_terrain.hpp` line 37, body not in the source tree), section 4.1:
descends like `queryTerrain`; a leaf met while the maximum depth has not been
reached (`h > 0`) is turned into an internal node with 8 fresh leaf children
that all inherit its voxel, and the descent continues; at the maximum depth
(`h = 0`) the node is the leaf holding `voxel`.  The function returns the tree
after the edit (the source mutates in place and returns a pointer to the
mutated node). -/
def changeOctantTerrain (toChild : Nat → Fin 8 → IVec3 → IVec3) (h : Nat) (node : Octant)
    (queryPoint : IVec3) (voxel : Nat) : Octant :=
  match h, node with
  | 0, _ => .leaf voxel
  | h + 1, .leaf w =>
      .node (Function.update (fun _ => Octant.leaf w) (childIndex queryPoint)
        (changeOctantTerrain toChild h (.leaf w)
          (toChild (h + 1) (childIndex queryPoint) queryPoint) voxel))
  | h + 1, .node octants =>
      .node (Function.update octants (childIndex queryPoint)
        (changeOctantTerrain toChild h (octants (childIndex queryPoint))
          (toChild (h + 1) (childIndex queryPoint) queryPoint) voxel))

/-- Modelled from the spec: the maximum-depth cell of a node-local point, named by
the children the descent of `queryTerrain` / `changeOctantTerrain` selects from a
node of height `h` down to the maximum depth. -/
def descentPath (toChild : Nat → Fin 8 → IVec3 → IVec3) : Nat → IVec3 → List (Fin 8)
  | 0, _ => []
  | h + 1, p => childIndex p :: descentPath toChild h (toChild (h + 1) (childIndex p) p)

/-- Modelled from the spec: `Chunk` (`eve_chunk.hpp`, not in the source tree),
section 3: an id, the world position of the centre of its cube, the root of the
octree it owns and the `dirty` flag. -/
structure Chunk where
  id : Nat
  position : IVec3
  root : Octant
  dirty : Bool

/-- Modelled from the spec: the effect of `EveTerrain::changeTerrain(pos, voxel)`
(declared `eve_terrain.hpp` line 36, body not in the source tree) on the chunk
whose cube contains the world position `pos`: the octree is edited at `pos`
taken relative to the chunk, down to the configured maximum depth, and the chunk
is marked dirty.  Finding the chunk and scheduling it and its neighbours for
re-meshing are not part of this definition. -/
def changeTerrain (toChild : Nat → Fin 8 → IVec3 → IVec3) (maxDepth : Nat) (c : Chunk)
    (pos : IVec3) (voxel : Nat) : Chunk :=
  { c with
    root := changeOctantTerrain toChild maxDepth c.root (pos.sub c.position) voxel
    dirty := true }

/-- Modelled from the spec: the read-only lookup `queryTerrain(worldPosition)` of
section 6 for the chunk whose cube contains `pos`: `queryTerrain` on the root at
full depth. -/
def queryTerrainAt (toChild : Nat → Fin 8 → IVec3 → IVec3) (maxDepth : Nat) (c : Chunk)
    (pos : IVec3) : Octant :=
  queryTerrain toChild maxDepth c.root maxDepth (pos.sub c.position)

/-- One edit of a chunk: a `changeTerrain` at a world position or a
`changeOctantTerrain` on the root at a chunk-local point. -/
inductive Edit where
  | terrain (pos : IVec3) (voxel : Nat)
  | octant (queryPoint : IVec3) (voxel : Nat)

/-- Apply one edit to a chunk; both kinds mark the chunk dirty (section 4.1). -/
def applyEdit (toChild : Nat → Fin 8 → IVec3 → IVec3) (maxDepth : Nat) (c : Chunk) :
    Edit → Chunk
  | .terrain pos voxel => changeTerrain toChild maxDepth c pos voxel
  | .octant queryPoint voxel =>
      { c with
        root := changeOctantTerrain toChild maxDepth c.root queryPoint voxel
        dirty := true }

/-- A cube geometry to evaluate the functions on: a node of height `h` has side
`2 ^ h`, its children have their centres a quarter side away along the child's
`octreeOffsets` direction. -/
def dyadicToChild (h : Nat) (i : Fin 8) (p : IVec3) : IVec3 :=
  let o := octreeOffsets.getD i.val ⟨0, 0, 0⟩
  let quarter : Int := ((2 ^ h / 4 : Nat) : Int)
  ⟨p.x - o.x * quarter, p.y - o.y * quarter, p.z - o.z * quarter⟩

/-- The cells of a node of height `h` in the cube geometry, in node-local
coordinates: on each axis the `2 ^ h` integers from `-(2 ^ h) / 2` up. -/
def inCube (h : Nat) (p : IVec3) : Prop :=
  (-(2 ^ h) ≤ 2 * p.x ∧ 2 * p.x < 2 ^ h) ∧ (-(2 ^ h) ≤ 2 * p.y ∧ 2 * p.y < 2 ^ h) ∧
    (-(2 ^ h) ≤ 2 * p.z ∧ 2 * p.z < 2 ^ h)

instance (h : Nat) (p : IVec3) : Decidable (inCube h p) := by
  unfold inCube
  exact inferInstance

/-- Modelled from the spec: `EveTerrain::pushIfUnique(list, chunk)` (declared
`eve_terrain.hpp` line 39, body not in the source tree), section 4.1: appends
`chunk` to `list` only if it is not already present, comparing pointers.  The
list after the call is returned. -/
def pushIfUnique (list : List Nat) (chunk : Nat) : List Nat :=
  if chunk ∈ list then list else list ++ [chunk]

end EveTerrain

/-! ### `eve_game_object.hpp`: the transform of a game object -/

/-- Vector of three scalars, `glm::vec3`, over the scalars `R`. -/
structure Vec3 (R : Type) where
  x : R
  y : R
  z : R

/-- The struct `TransformComponent` (`eve_game_object.hpp` lines 12-16) with its
default member values: translation and rotation zero, scale one. -/
structure TransformComponent (R : Type) [Zero R] [One R] where
  translation : Vec3 R := ⟨0, 0, 0⟩
  scale : Vec3 R := ⟨1, 1, 1⟩
  rotation : Vec3 R := ⟨0, 0, 0⟩

/-- The method `TransformComponent::mat4` (`eve_game_object.hpp` lines 21-49), over
a commutative ring of scalars with the cosine and sine as arguments (`glm::cos`,
`glm::sin`).  A `glm::mat4` is its four columns: the result applied to `c` and
`r` is the entry of column `c`, row `r`, as `m[c][r]` in glm. -/
def TransformComponent.mat4 {R : Type} [CommRing R] (cos sin : R → R)
    (self : TransformComponent R) : Fin 4 → Fin 4 → R :=
  let c3 := cos self.rotation.z
  let s3 := sin self.rotation.z
  let c2 := cos self.rotation.x
  let s2 := sin self.rotation.x
  let c1 := cos self.rotation.y
  let s1 := sin self.rotation.y
  ![ ![ self.scale.x * (c1 * c3 + s1 * s2 * s3),
        self.scale.x * (c2 * s3),
        self.scale.x * (c1 * s2 * s3 - c3 * s1),
        0 ],
     ![ self.scale.y * (c3 * s1 * s2 - c1 * s3),
        self.scale.y * (c2 * c3),
        self.scale.y * (c1 * c3 * s2 + s1 * s3),
        0 ],
     ![ self.scale.z * (c2 * s1),
        self.scale.z * (-s2),
        self.scale.z * (c1 * c2),
        0 ],
     ![ self.translation.x, self.translation.y, self.translation.z, 1 ] ]

/-- The matrix a column-major `glm::mat4` stands for: entry (row, col) is entry
`row` of column `col`. -/
def columnsToMatrix {R : Type} (cols : Fin 4 → Fin 4 → R) : Matrix (Fin 4) (Fin 4) R :=
  Matrix.of (fun row col => cols col row)

/-- Homogeneous translation by `t`, written row by row. -/
def translateMatrix {R : Type} [CommRing R] (t : Vec3 R) : Matrix (Fin 4) (Fin 4) R :=
  !![1, 0, 0, t.x;
     0, 1, 0, t.y;
     0, 0, 1, t.z;
     0, 0, 0, 1]

/-- Homogeneous scaling by `s`, written row by row. -/
def scaleMatrix {R : Type} [CommRing R] (s : Vec3 R) : Matrix (Fin 4) (Fin 4) R :=
  !![s.x, 0, 0, 0;
     0, s.y, 0, 0;
     0, 0, s.z, 0;
     0, 0, 0, 1]

/-- Standard rotation about the x axis by an angle of cosine `c` and sine `s`. -/
def rotationX {R : Type} [CommRing R] (c s : R) : Matrix (Fin 4) (Fin 4) R :=
  !![1, 0, 0, 0;
     0, c, -s, 0;
     0, s, c, 0;
     0, 0, 0, 1]

/-- Standard rotation about the y axis by an angle of cosine `c` and sine `s`. -/
def rotationY {R : Type} [CommRing R] (c s : R) : Matrix (Fin 4) (Fin 4) R :=
  !![c, 0, s, 0;
     0, 1, 0, 0;
     -s, 0, c, 0;
     0, 0, 0, 1]

/-- Standard rotation about the z axis by an angle of cosine `c` and sine `s`. -/
def rotationZ {R : Type} [CommRing R] (c s : R) : Matrix (Fin 4) (Fin 4) R :=
  !![c, -s, 0, 0;
     s, c, 0, 0;
     0, 0, 1, 0;
     0, 0, 0, 1]

/-- Dot product of the first three components of columns `i` and `j` of a
`glm::mat4`. -/
def columnDot {R : Type} [CommRing R] (cols : Fin 4 → Fin 4 → R) (i j : Fin 4) : R :=
  cols i 0 * cols j 0 + cols i 1 * cols j 1 + cols i 2 * cols j 2

/-- The upper-left 3x3 block of the matrix a column-major `glm::mat4` stands for,
written row by row. -/
def upperLeft3 {R : Type} (cols : Fin 4 → Fin 4 → R) : Matrix (Fin 3) (Fin 3) R :=
  !![cols 0 0, cols 1 0, cols 2 0;
     cols 0 1, cols 1 1, cols 2 1;
     cols 0 2, cols 1 2, cols 2 2]

/-! ### `eve_game_object.hpp`: object ids -/

/-- The class `EveGameObject` (`eve_game_object.hpp` lines 52-78), reduced to its
private member `id` of type `id_t = unsigned int`. -/
structure EveGameObject where
  id : Nat
deriving DecidableEq, Repr

namespace EveGameObject

/-- The method `EveGameObject::getId`. -/
def getId (self : EveGameObject) : Nat := self.id

/-- The function `EveGameObject::createGameObject` (`eve_game_object.hpp` lines
57-61, the same text in `game/eve_game_object.hpp` lines 63-67):
`return EveGameObject{currentId++}`.  The function-local `static id_t currentId`
is the argument, the object and the new value of the static are returned; the
increment of the 32-bit `unsigned int` wraps. -/
def createGameObject (currentId : Nat) : EveGameObject × Nat :=
  (⟨currentId⟩, (currentId + 1) % 2 ^ 32)

/-- Value of the static `currentId` after `k` calls of `createGameObject`; its
initialiser is `0`. -/
def counterAfter : Nat → Nat
  | 0 => 0
  | k + 1 => (createGameObject (counterAfter k)).2

/-- The object the call number `k` of `createGameObject` returns, counted from 0. -/
def nthCreated (k : Nat) : EveGameObject := (createGameObject (counterAfter k)).1

end EveGameObject

/-! ### `eve_descriptors.cpp` -/

/-- The Vulkan struct `VkDescriptorSetLayoutBinding`; handles, enums and flag
words are natural numbers.  The default values are those of the value
initialisation `VkDescriptorSetLayoutBinding layoutBinding{}`. -/
structure VkDescriptorSetLayoutBinding where
  binding : Nat := 0
  descriptorType : Nat := 0
  descriptorCount : Nat := 0
  stageFlags : Nat := 0
  pImmutableSamplers : Nat := 0
deriving DecidableEq, Repr

/-- State of `EveDescriptorSetLayout::Builder`: the member `bindings`, a
`std::unordered_map<uint32_t, VkDescriptorSetLayoutBinding>`, as a list of
entries with distinct keys. -/
structure EveDescriptorSetLayout.Builder where
  bindings : AList (fun _ : Nat => VkDescriptorSetLayoutBinding)

/-- The method `EveDescriptorSetLayout::Builder::addBinding` (`eve_descriptors.cpp`
lines 12-26).  `none` is the failed assertion `bindings.count(binding) == 0`;
otherwise the builder after `bindings[binding] = layoutBinding`. -/
def EveDescriptorSetLayout.Builder.addBinding (self : EveDescriptorSetLayout.Builder)
    (binding descriptorType stageFlags count : Nat) : Option EveDescriptorSetLayout.Builder :=
  if binding ∈ self.bindings then none
  else
    let layoutBinding : VkDescriptorSetLayoutBinding :=
      { binding := binding
        descriptorType := descriptorType
        descriptorCount := count
        stageFlags := stageFlags }
    some ⟨self.bindings.insert binding layoutBinding⟩

/-- The Vulkan struct `VkWriteDescriptorSet`; pointers, handles and enums are
natural numbers.  The default values are those of `VkWriteDescriptorSet write{}`. -/
structure VkWriteDescriptorSet where
  sType : Nat := 0
  pNext : Nat := 0
  dstSet : Nat := 0
  dstBinding : Nat := 0
  dstArrayElement : Nat := 0
  descriptorCount : Nat := 0
  descriptorType : Nat := 0
  pImageInfo : Nat := 0
  pBufferInfo : Nat := 0
  pTexelBufferView : Nat := 0
deriving DecidableEq, Repr

/-- The Vulkan result code `VK_SUCCESS`. -/
def VK_SUCCESS : Int := 0

/-- The method `EveDescriptorPool::allocateDescriptor` (`eve_descriptors.cpp` lines
125-150).  The driver call `vkAllocateDescriptorSets` is an argument: from the
layout and the current value of the out-parameter it gives the result code and
the value it leaves in the out-parameter.  Returned: the `bool` and the value of
`descriptor` after the call. -/
def EveDescriptorPool.allocateDescriptor (vkAllocateDescriptorSets : Nat → Nat → Int × Nat)
    (descriptorSetLayout : Nat) (descriptor : Nat) : Bool × Nat :=
  let r := vkAllocateDescriptorSets descriptorSetLayout descriptor
  if r.1 ≠ VK_SUCCESS then (false, r.2) else (true, r.2)

/-- State of `EveDescriptorWriter`: the handle of its set layout and the pending
`writes`. -/
structure EveDescriptorWriter where
  setLayout : Nat
  writes : List VkWriteDescriptorSet
deriving DecidableEq, Repr

/-- The method `EveDescriptorWriter::overwrite` (`eve_descriptors.cpp` lines
227-234): every pending write gets `dstSet = set`, then `vkUpdateDescriptorSets`
is called with the writes.  `vkUpdates` is the list of the calls of
`vkUpdateDescriptorSets` made so far, each with the writes it was given. -/
def EveDescriptorWriter.overwrite (self : EveDescriptorWriter) (set : Nat)
    (vkUpdates : List (List VkWriteDescriptorSet)) :
    EveDescriptorWriter × List (List VkWriteDescriptorSet) :=
  let writes := self.writes.map (fun write => { write with dstSet := set })
  ({ self with writes := writes }, vkUpdates ++ [writes])

/-- The method `EveDescriptorWriter::build` (`eve_descriptors.cpp` lines 216-225).
Returned: the `bool`, the writer, the value of the out-parameter `set` and the
calls of `vkUpdateDescriptorSets`, all after the call. -/
def EveDescriptorWriter.build (vkAllocateDescriptorSets : Nat → Nat → Int × Nat)
    (self : EveDescriptorWriter) (set : Nat) (vkUpdates : List (List VkWriteDescriptorSet)) :
    Bool × EveDescriptorWriter × Nat × List (List VkWriteDescriptorSet) :=
  let alloc := EveDescriptorPool.allocateDescriptor vkAllocateDescriptorSets self.setLayout set
  if !alloc.1 then (false, self, alloc.2, vkUpdates)
  else
    let after := self.overwrite alloc.2 vkUpdates
    (true, after.1, alloc.2, after.2)

/-! ## Theorems -/

namespace EveTerrain

/-- A query that starts at a leaf stops there, whatever depth is left. -/
theorem queryTerrain_leaf (toChild : Nat → Fin 8 → IVec3 → IVec3) (h d : Nat) (w : Nat)
    (p : IVec3) : queryTerrain toChild h (.leaf w) d p = .leaf w := by
  cases d <;> simp [queryTerrain]

/-- A full-depth query at the edited point finds the leaf the edit wrote. -/
theorem queryTerrain_changeOctantTerrain_same (toChild : Nat → Fin 8 → IVec3 → IVec3)
    (h : Nat) (node : Octant) (p : IVec3) (v : Nat) :
    queryTerrain toChild h (changeOctantTerrain toChild h node p v) h p = .leaf v := by
  induction h generalizing node p with
  | zero => simp [changeOctantTerrain, queryTerrain]
  | succ h ih =>
    cases node with
    | leaf w => simp [changeOctantTerrain, queryTerrain, ih]
    | node octants => simp [changeOctantTerrain, queryTerrain, ih]

/-- A full-depth query in another maximum-depth cell is not affected by the edit. -/
theorem queryTerrain_changeOctantTerrain_other (toChild : Nat → Fin 8 → IVec3 → IVec3)
    (h : Nat) (node : Octant) (p q : IVec3) (v : Nat)
    (hcell : descentPath toChild h q ≠ descentPath toChild h p) :
    queryTerrain toChild h (changeOctantTerrain toChild h node p v) h q =
      queryTerrain toChild h node h q := by
  induction h generalizing node p q with
  | zero => exact absurd rfl hcell
  | succ h ih =>
    by_cases hk : childIndex q = childIndex p
    · have htail : descentPath toChild h (toChild (h + 1) (childIndex p) q) ≠
          descentPath toChild h (toChild (h + 1) (childIndex p) p) := by
        intro heq
        apply hcell
        simp only [descentPath, hk, heq]
      cases node with
      | leaf w =>
        simp only [changeOctantTerrain, queryTerrain, Nat.add_sub_cancel]
        rw [hk, Function.update_same, ih _ _ _ htail, queryTerrain_leaf]
      | node octants =>
        simp only [changeOctantTerrain, queryTerrain, Nat.add_sub_cancel]
        rw [hk, Function.update_same]
        exact ih _ _ _ htail
    · cases node with
      | leaf w =>
        simp only [changeOctantTerrain, queryTerrain, Function.update_noteq hk,
          queryTerrain_leaf]
      | node octants =>
        simp only [changeOctantTerrain, queryTerrain, Function.update_noteq hk]

/-- The depth of an internal node is within `h + 1` exactly when every child is
within `h`. -/
theorem Octant.depth_node_le (octants : Fin 8 → Octant) (h : Nat) :
    (Octant.node octants).depth ≤ h + 1 ↔ ∀ i, (octants i).depth ≤ h := by
  simp only [Octant.depth]
  constructor
  · intro hle i
    have hi : (octants i).depth ≤ Finset.univ.sup (fun i => (octants i).depth) :=
      Finset.le_sup (f := fun i => (octants i).depth) (Finset.mem_univ i)
    omega
  · intro hall
    have hsup : Finset.univ.sup (fun i => (octants i).depth) ≤ h :=
      Finset.sup_le (fun i _ => hall i)
    omega

/-- An edit of a tree that respects the maximum depth gives a tree that respects it. -/
theorem changeOctantTerrain_depth_le (toChild : Nat → Fin 8 → IVec3 → IVec3)
    (h : Nat) (node : Octant) (p : IVec3) (v : Nat) (hd : node.depth ≤ h) :
    (changeOctantTerrain toChild h node p v).depth ≤ h := by
  induction h generalizing node p with
  | zero => simp [changeOctantTerrain, Octant.depth]
  | succ h ih =>
    cases node with
    | leaf w =>
      simp only [changeOctantTerrain]
      rw [Octant.depth_node_le]
      intro i
      by_cases hi : i = childIndex p
      · subst hi
        rw [Function.update_same]
        exact ih _ _ (by simp [Octant.depth])
      · rw [Function.update_noteq hi]
        simp [Octant.depth]
    | node octants =>
      have hch := (Octant.depth_node_le octants h).1 hd
      simp only [changeOctantTerrain]
      rw [Octant.depth_node_le]
      intro i
      by_cases hi : i = childIndex p
      · subst hi
        rw [Function.update_same]
        exact ih _ _ (hch _)
      · rw [Function.update_noteq hi]
        exact hch i

/-- A query with at least as much depth as the tree has ends at a leaf. -/
theorem queryTerrain_isLeaf (toChild : Nat → Fin 8 → IVec3 → IVec3) (h d : Nat)
    (node : Octant) (p : IVec3) (hd : node.depth ≤ d) :
    (queryTerrain toChild h node d p).isLeaf = true := by
  induction d generalizing h node p with
  | zero =>
    cases node with
    | leaf w => simp [queryTerrain, Octant.isLeaf]
    | node octants => simp [Octant.depth] at hd
  | succ d ih =>
    cases node with
    | leaf w => simp [queryTerrain, Octant.isLeaf]
    | node octants =>
      simp only [queryTerrain]
      exact ih _ _ _ ((Octant.depth_node_le octants d).1 hd _)

/-- Every edit keeps the octree of a chunk within the maximum depth. -/
theorem applyEdit_depth_le (toChild : Nat → Fin 8 → IVec3 → IVec3) (maxDepth : Nat)
    (c : Chunk) (e : Edit) (hd : c.root.depth ≤ maxDepth) :
    (applyEdit toChild maxDepth c e).root.depth ≤ maxDepth := by
  cases e with
  | terrain pos voxel => exact changeOctantTerrain_depth_le toChild maxDepth _ _ _ hd
  | octant queryPoint voxel => exact changeOctantTerrain_depth_le toChild maxDepth _ _ _ hd

/-- One more level of the descent. -/
theorem descentPath_succ (toChild : Nat → Fin 8 → IVec3 → IVec3) (h : Nat) (p : IVec3) :
    descentPath toChild (h + 1) p =
      childIndex p :: descentPath toChild h (toChild (h + 1) (childIndex p) p) := rfl

/-- The table entry of the selected child is the sign triple of the point. -/
theorem octreeOffsets_childIndex (p : IVec3) :
    octreeOffsets.getD (childIndex p).val ⟨0, 0, 0⟩ = signVec p := by
  simp only [childIndex, signVec, axisSign]
  split_ifs <;> decide

/-- Points that select the same child have the same sign triple. -/
theorem signVec_eq_of_childIndex_eq (p q : IVec3) (hk : childIndex p = childIndex q) :
    signVec p = signVec q := by
  rw [← octreeOffsets_childIndex p, ← octreeOffsets_childIndex q, hk]

/-- Cube geometry, one axis: two coordinates of a node of height `h + 2` with the
same sign both lie in the child of height `h + 1` once re-centred. -/
theorem inCube_axis_step (h : Nat) (a b : Int) (hs : axisSign a = axisSign b)
    (ha : -(2 ^ (h + 2)) ≤ 2 * a ∧ 2 * a < 2 ^ (h + 2))
    (hb : -(2 ^ (h + 2)) ≤ 2 * b ∧ 2 * b < 2 ^ (h + 2)) :
    (-(2 ^ (h + 1)) ≤ 2 * (a - axisSign a * 2 ^ h) ∧
      2 * (a - axisSign a * 2 ^ h) < 2 ^ (h + 1)) ∧
    (-(2 ^ (h + 1)) ≤ 2 * (b - axisSign a * 2 ^ h) ∧
      2 * (b - axisSign a * 2 ^ h) < 2 ^ (h + 1)) := by
  have e1 : (2 : Int) ^ (h + 2) = 4 * 2 ^ h := by ring
  have e2 : (2 : Int) ^ (h + 1) = 2 * 2 ^ h := by ring
  have hpos : (0 : Int) < 2 ^ h := by positivity
  rw [e1] at ha hb
  rw [e2]
  unfold axisSign at hs ⊢
  split_ifs at hs ⊢ with h1 h2 <;> omega

/-- Cube geometry, one axis: in a node of height 1 the sign decides the coordinate. -/
theorem inCube_axis_base (a b : Int) (hs : axisSign a = axisSign b)
    (ha : -(2 ^ 1) ≤ 2 * a ∧ 2 * a < 2 ^ 1) (hb : -(2 ^ 1) ≤ 2 * b ∧ 2 * b < 2 ^ 1) :
    a = b := by
  unfold axisSign at hs
  split_ifs at hs <;> omega

/-- Cube geometry: the point re-centred on the child it selects. -/
theorem dyadicToChild_childIndex (h : Nat) (p q : IVec3) (hk : childIndex q = childIndex p) :
    dyadicToChild (h + 2) (childIndex q) q =
      ⟨q.x - axisSign p.x * 2 ^ h, q.y - axisSign p.y * 2 ^ h, q.z - axisSign p.z * 2 ^ h⟩ := by
  have hq : (2 ^ (h + 2) / 4 : Nat) = 2 ^ h := by
    rw [pow_add]
    norm_num
  simp only [dyadicToChild, hk, octreeOffsets_childIndex, signVec, hq, Nat.cast_pow,
    Nat.cast_ofNat]

/-- Cube geometry: the cells of a node of height `h + 1` are its integer points,
two points of the node with the same descent are equal. -/
theorem dyadic_descentPath_injective (h : Nat) (p q : IVec3)
    (hp : inCube (h + 1) p) (hq : inCube (h + 1) q)
    (hpath : descentPath dyadicToChild (h + 1) p = descentPath dyadicToChild (h + 1) q) :
    p = q := by
  induction h generalizing p q with
  | zero =>
    simp only [descentPath, List.cons.injEq, and_true] at hpath
    have hs := signVec_eq_of_childIndex_eq p q hpath
    simp only [signVec, IVec3.mk.injEq] at hs
    obtain ⟨hx, hy, hz⟩ := hs
    obtain ⟨px, py, pz⟩ := hp
    obtain ⟨qx, qy, qz⟩ := hq
    cases p; cases q
    simp only [IVec3.mk.injEq]
    exact ⟨inCube_axis_base _ _ hx px qx, inCube_axis_base _ _ hy py qy,
      inCube_axis_base _ _ hz pz qz⟩
  | succ h ih =>
    rw [descentPath_succ dyadicToChild (h + 1) p,
      descentPath_succ dyadicToChild (h + 1) q] at hpath
    simp only [List.cons.injEq] at hpath
    obtain ⟨hk, htail⟩ := hpath
    have hs := signVec_eq_of_childIndex_eq p q hk
    simp only [signVec, IVec3.mk.injEq] at hs
    obtain ⟨hx, hy, hz⟩ := hs
    obtain ⟨px, py, pz⟩ := hp
    obtain ⟨qx, qy, qz⟩ := hq
    rw [dyadicToChild_childIndex h p p rfl, dyadicToChild_childIndex h p q hk.symm] at htail
    have sx := inCube_axis_step h _ _ hx px qx
    have sy := inCube_axis_step h _ _ hy py qy
    have sz := inCube_axis_step h _ _ hz pz qz
    have heq := ih _ _ ⟨sx.1, sy.1, sz.1⟩ ⟨sx.2, sy.2, sz.2⟩ htail
    simp only [IVec3.mk.injEq] at heq
    cases p; cases q
    simp only [IVec3.mk.injEq]
    simp only at heq
    omega

/-- Cube geometry: an edit at the cell `p` of a node of height `h + 1` does not
change what a full-depth query reports at any other cell `q` of the node. -/
theorem queryTerrain_changeOctantTerrain_dyadic (h : Nat) (node : Octant) (p q : IVec3)
    (v : Nat) (hp : inCube (h + 1) p) (hq : inCube (h + 1) q) (hne : q ≠ p) :
    queryTerrain dyadicToChild (h + 1)
        (changeOctantTerrain dyadicToChild (h + 1) node p v) (h + 1) q =
      queryTerrain dyadicToChild (h + 1) node (h + 1) q :=
  queryTerrain_changeOctantTerrain_other dyadicToChild (h + 1) node p q v
    (fun hpath => hne (dyadic_descentPath_injective h q p hq hp hpath))

/-- C1: for every chunk, voxel `V` and world position `P` (in particular every one
inside the chunk's bounds), after `changeTerrain(P, V)` a full-depth
`queryTerrain` at `P` returns the leaf whose voxel is `V`. -/
theorem queryTerrain_after_changeTerrain (toChild : Nat → Fin 8 → IVec3 → IVec3)
    (maxDepth : Nat) (c : Chunk) (P : IVec3) (V : Nat) :
    queryTerrainAt toChild maxDepth (changeTerrain toChild maxDepth c P V) P = Octant.leaf V ∧
    (queryTerrainAt toChild maxDepth (changeTerrain toChild maxDepth c P V) P).voxel? =
      some V := by
  have hq : queryTerrainAt toChild maxDepth (changeTerrain toChild maxDepth c P V) P =
      Octant.leaf V := by
    simp only [queryTerrainAt, changeTerrain]
    exact queryTerrain_changeOctantTerrain_same toChild maxDepth c.root _ V
  exact ⟨hq, by rw [hq]; rfl⟩

/-- C2: if the octree of a chunk is within the configured maximum depth, it is
still within it after every finite sequence of `changeTerrain` /
`changeOctantTerrain` edits, and a descent of the maximum depth always ends at a
leaf: a node at the maximum depth is a leaf, and an edit that reaches a node at
the maximum depth leaves a leaf there, it does not subdivide. -/
theorem depth_bounded_under_edits (toChild : Nat → Fin 8 → IVec3 → IVec3)
    (maxDepth : Nat) (c : Chunk) (edits : List Edit) (hd : c.root.depth ≤ maxDepth) :
    (edits.foldl (applyEdit toChild maxDepth) c).root.depth ≤ maxDepth ∧
    (∀ p : IVec3,
      (queryTerrain toChild maxDepth (edits.foldl (applyEdit toChild maxDepth) c).root
        maxDepth p).isLeaf = true) ∧
    ∀ (node : Octant) (p : IVec3) (v : Nat),
      (changeOctantTerrain toChild 0 node p v).isLeaf = true := by
  have hfold : (edits.foldl (applyEdit toChild maxDepth) c).root.depth ≤ maxDepth := by
    induction edits generalizing c with
    | nil => exact hd
    | cons e es ih =>
      rw [List.foldl_cons]
      exact ih _ (applyEdit_depth_le toChild maxDepth c e hd)
  exact ⟨hfold, fun p => queryTerrain_isLeaf toChild maxDepth maxDepth _ p hfold,
    fun node p v => by simp [changeOctantTerrain, Octant.isLeaf]⟩

/-- C2 on a fresh chunk (a single leaf) of maximum depth 2 after two edits. -/
theorem depth_bounded_under_edits_witness :
    (Octant.leaf 0).depth ≤ 2 ∧
    ([Edit.terrain ⟨0, 0, 0⟩ 5, Edit.octant ⟨-1, 0, 1⟩ 7].foldl (applyEdit dyadicToChild 2)
      ⟨0, ⟨0, 0, 0⟩, Octant.leaf 0, false⟩).root.depth ≤ 2 :=
  ⟨by decide,
    (depth_bounded_under_edits dyadicToChild 2 ⟨0, ⟨0, 0, 0⟩, Octant.leaf 0, false⟩
      [Edit.terrain ⟨0, 0, 0⟩ 5, Edit.octant ⟨-1, 0, 1⟩ 7] (by decide)).1⟩

/-- C3: for every octree, point `P`, voxel `V` and maximum-depth cell other than
the one containing `P` (a point `Q` whose descent differs from that of `P`),
`changeOctantTerrain(root, P, V)` leaves what a full-depth `queryTerrain` reports
at `Q` unchanged; a leaf split on the way down becomes an internal node whose 8
children are leaves carrying its previous voxel, except the child on the way to
`P`, which is the edit of such a leaf. -/
theorem changeOctantTerrain_frame (toChild : Nat → Fin 8 → IVec3 → IVec3)
    (h : Nat) (root : Octant) (P Q : IVec3) (V : Nat)
    (hcell : descentPath toChild h Q ≠ descentPath toChild h P) :
    queryTerrain toChild h (changeOctantTerrain toChild h root P V) h Q =
        queryTerrain toChild h root h Q ∧
    (queryTerrain toChild h (changeOctantTerrain toChild h root P V) h Q).voxel? =
        (queryTerrain toChild h root h Q).voxel? ∧
    ∀ (k w : Nat), ∃ octants : Fin 8 → Octant,
      changeOctantTerrain toChild (k + 1) (.leaf w) P V = .node octants ∧
      (∀ i, i ≠ childIndex P → octants i = .leaf w) ∧
      octants (childIndex P) =
        changeOctantTerrain toChild k (.leaf w) (toChild (k + 1) (childIndex P) P) V := by
  have hq := queryTerrain_changeOctantTerrain_other toChild h root P Q V hcell
  refine ⟨hq, by rw [hq], fun k w => ?_⟩
  refine ⟨_, rfl, fun i hi => ?_, ?_⟩
  · exact Function.update_noteq hi _ _
  · exact Function.update_same _ _ _

/-- C3 on a fresh leaf of height 2: editing the cell of (0,0,0) leaves the cell of
(1,0,0) with the old voxel. -/
theorem changeOctantTerrain_frame_witness :
    descentPath dyadicToChild 2 ⟨1, 0, 0⟩ ≠ descentPath dyadicToChild 2 ⟨0, 0, 0⟩ ∧
    queryTerrain dyadicToChild 2
        (changeOctantTerrain dyadicToChild 2 (.leaf 4) ⟨0, 0, 0⟩ 9) 2 ⟨1, 0, 0⟩ =
      queryTerrain dyadicToChild 2 (.leaf 4) 2 ⟨1, 0, 0⟩ :=
  ⟨by decide,
    (changeOctantTerrain_frame dyadicToChild 2 (.leaf 4) ⟨0, 0, 0⟩ ⟨1, 0, 0⟩ 9
      (by decide)).1⟩

/-- C6: the `octreeOffsets` table has exactly 8 entries, every component of every
entry is -1 or +1, the entries are pairwise distinct, and a sign triple
`(sx, sy, sz)` of -1/+1 values is the entry of exactly one index, namely
`4*[sy = 1] + 2*[sx = 1] + [sz = 1]`. -/
theorem octreeOffsets_sign_table (sx sy sz : Int)
    (hx : sx = -1 ∨ sx = 1) (hy : sy = -1 ∨ sy = 1) (hz : sz = -1 ∨ sz = 1) :
    octreeOffsets.length = 8 ∧
    (∀ o ∈ octreeOffsets,
      (o.x = -1 ∨ o.x = 1) ∧ (o.y = -1 ∨ o.y = 1) ∧ (o.z = -1 ∨ o.z = 1)) ∧
    octreeOffsets.Nodup ∧
    signIndex sx sy sz < 8 ∧
    (∀ i : Nat, octreeOffsets[i]? = some ⟨sx, sy, sz⟩ ↔ i = signIndex sx sy sz) := by
  refine ⟨by decide, by decide, by decide, ?_, ?_⟩
  · rcases hx with rfl | rfl <;> rcases hy with rfl | rfl <;> rcases hz with rfl | rfl <;>
      decide
  · intro i
    have hi : i < 8 ∨ 8 ≤ i := Nat.lt_or_ge i 8
    rcases hi with hi | hi
    · interval_cases i <;>
        rcases hx with rfl | rfl <;> rcases hy with rfl | rfl <;>
          rcases hz with rfl | rfl <;> decide
    · have hnone : octreeOffsets[i]? = none :=
        List.getElem?_eq_none (by simpa [octreeOffsets] using hi)
      have hlt : signIndex sx sy sz < 8 := by
        rcases hx with rfl | rfl <;> rcases hy with rfl | rfl <;>
          rcases hz with rfl | rfl <;> decide
      rw [hnone]
      constructor
      · intro hcontra
        cases hcontra
      · intro hEq
        omega

/-- C6 at the triple (+1, -1, +1): it is entry 3 of the table and of no other index. -/
theorem octreeOffsets_sign_table_witness :
    octreeOffsets.length = 8 ∧ signIndex 1 (-1) 1 = 3 ∧
    (∀ i : Nat, octreeOffsets[i]? = some ⟨1, -1, 1⟩ ↔ i = 3) :=
  have h := octreeOffsets_sign_table 1 (-1) 1 (Or.inr rfl) (Or.inl rfl) (Or.inr rfl)
  ⟨h.1, by decide, h.2.2.2.2⟩

/-- C7: for every internal node and every node-local point, zero offsets
included, `queryTerrain` descends into exactly one child, `childIndex`; its
`octreeOffsets` entry is +1 on every axis whose offset is >= 0 and -1 on every
axis whose offset is < 0, and no other index has such an entry. -/
theorem queryTerrain_selects_child (toChild : Nat → Fin 8 → IVec3 → IVec3) (h d : Nat)
    (octants : Fin 8 → Octant) (p : IVec3) :
    queryTerrain toChild h (.node octants) (d + 1) p =
        queryTerrain toChild (h - 1) (octants (childIndex p)) d
          (toChild h (childIndex p) p) ∧
    queryTerrain toChild h (.node octants) 1 p = octants (childIndex p) ∧
    octreeOffsets[(childIndex p).val]? =
        some ⟨if 0 ≤ p.x then 1 else -1, if 0 ≤ p.y then 1 else -1,
              if 0 ≤ p.z then 1 else -1⟩ ∧
    (∀ i : Nat,
      octreeOffsets[i]? =
          some ⟨if 0 ≤ p.x then 1 else -1, if 0 ≤ p.y then 1 else -1,
                if 0 ≤ p.z then 1 else -1⟩ →
        i = (childIndex p).val) ∧
    (childIndex p).val =
      4 * (if 0 ≤ p.y then 1 else 0) + 2 * (if 0 ≤ p.x then 1 else 0) +
        (if 0 ≤ p.z then 1 else 0) := by
  refine ⟨by simp [queryTerrain], by simp [queryTerrain], ?_, ?_, ?_⟩
  · simp only [childIndex, signVec, axisSign]
    split_ifs <;> decide
  · intro i hi
    have hlt : i < 8 := by
      by_contra hge
      have hnone : octreeOffsets[i]? = none :=
        List.getElem?_eq_none (by simp only [octreeOffsets, List.length]; omega)
      rw [hnone] at hi
      cases hi
    simp only [childIndex, signVec, axisSign]
    interval_cases i <;> split_ifs at hi ⊢ <;> first | decide | (exact absurd hi (by decide))
  · simp only [childIndex, signVec, axisSign]
    split_ifs <;> decide

/-- C4: `pushIfUnique` leaves the list unchanged when the chunk pointer already
occurs in it and otherwise appends it as the single new last element; calling it
twice with the same pointer equals calling it once; a list built from the empty
list by `pushIfUnique` alone has no duplicate and holds every pushed pointer
exactly once and no other. -/
theorem pushIfUnique_spec (list : List Nat) (c : Nat) :
    (c ∈ list → pushIfUnique list c = list) ∧
    (c ∉ list → pushIfUnique list c = list ++ [c]) ∧
    pushIfUnique (pushIfUnique list c) c = pushIfUnique list c ∧
    (∀ pushed : List Nat,
      (pushed.foldl pushIfUnique []).Nodup ∧
      ∀ x : Nat, (pushed.foldl pushIfUnique []).count x = if x ∈ pushed then 1 else 0) := by
  refine ⟨fun hc => by simp [pushIfUnique, hc], fun hc => by simp [pushIfUnique, hc], ?_, ?_⟩
  · by_cases hc : c ∈ list
    · simp [pushIfUnique, hc]
    · simp [pushIfUnique, hc]
  · intro pushed
    have key : ∀ (ps acc : List Nat), acc.Nodup →
        (ps.foldl pushIfUnique acc).Nodup ∧
        ∀ x, x ∈ ps.foldl pushIfUnique acc ↔ x ∈ acc ∨ x ∈ ps := by
      intro ps
      induction ps with
      | nil => intro acc hacc; simpa using hacc
      | cons a ps ih =>
        intro acc hacc
        have hstep : (pushIfUnique acc a).Nodup := by
          unfold pushIfUnique
          split_ifs with ha
          · exact hacc
          · exact List.Nodup.append hacc (List.nodup_singleton a) (by simpa using ha)
        have hmem : ∀ x, x ∈ pushIfUnique acc a ↔ x ∈ acc ∨ x = a := by
          intro x
          unfold pushIfUnique
          split_ifs with ha
          · constructor
            · exact fun hx => Or.inl hx
            · rintro (hx | rfl)
              · exact hx
              · exact ha
          · simp
        obtain ⟨h1, h2⟩ := ih (pushIfUnique acc a) hstep
        refine ⟨by simpa using h1, fun x => ?_⟩
        simp only [List.foldl_cons, h2 x, hmem x, List.mem_cons]
        tauto
    obtain ⟨hnd, hmem⟩ := key pushed [] List.nodup_nil
    refine ⟨hnd, fun x => ?_⟩
    by_cases hx : x ∈ pushed
    · rw [if_pos hx]
      exact List.count_eq_one_of_mem hnd ((hmem x).2 (Or.inr hx))
    · rw [if_neg hx]
      exact List.count_eq_zero_of_not_mem (fun hin => hx (by simpa using (hmem x).1 hin))

/-- C9: a terrain built from the default member initialisers has seed 123456,
sea level 0, minimum height 24 and maximum height -24. -/
theorem default_generation_config :
    ({} : EveTerrain).seed = 123456 ∧ ({} : EveTerrain).seaLevel = 0 ∧
    ({} : EveTerrain).minHeight = 24 ∧ ({} : EveTerrain).maxHeight = -24 ∧
    ∀ hardwareConcurrency : Nat,
      (construct hardwareConcurrency).seed = 123456 ∧
      (construct hardwareConcurrency).seaLevel = 0 ∧
      (construct hardwareConcurrency).minHeight = 24 ∧
      (construct hardwareConcurrency).maxHeight = -24 :=
  ⟨rfl, rfl, rfl, rfl, fun _ => ⟨rfl, rfl, rfl, rfl⟩⟩

end EveTerrain

/-! ### `TransformComponent::mat4` -/

/-- Over any commutative ring and for any cosine and sine functions, `mat4` is
the product translate * rotY * rotX * rotZ * scale. -/
theorem mat4_eq_product_of_ring {R : Type} [CommRing R] (cos sin : R → R)
    (tc : TransformComponent R) :
    columnsToMatrix (tc.mat4 cos sin) =
      translateMatrix tc.translation *
        rotationY (cos tc.rotation.y) (sin tc.rotation.y) *
        rotationX (cos tc.rotation.x) (sin tc.rotation.x) *
        rotationZ (cos tc.rotation.z) (sin tc.rotation.z) *
        scaleMatrix tc.scale := by
  obtain ⟨⟨tx, ty, tz⟩, ⟨sx, sy, sz⟩, ⟨rx, ry, rz⟩⟩ := tc
  simp only [TransformComponent.mat4]
  generalize cos ry = c1
  generalize sin ry = s1
  generalize cos rx = c2
  generalize sin rx = s2
  generalize cos rz = c3
  generalize sin rz = s3
  have h1 : translateMatrix ⟨tx, ty, tz⟩ * rotationY c1 s1 =
      !![c1, 0, s1, tx; 0, 1, 0, ty; -s1, 0, c1, tz; 0, 0, 0, 1] := by
    ext i j
    fin_cases i <;> fin_cases j <;>
      simp [translateMatrix, rotationY, Matrix.mul_apply, Fin.sum_univ_four,
        Matrix.vecHead, Matrix.vecTail]
  have h2 : (!![c1, 0, s1, tx; 0, 1, 0, ty; -s1, 0, c1, tz; 0, 0, 0, 1] : Matrix _ _ R) *
        rotationX c2 s2 =
      !![c1, s1 * s2, s1 * c2, tx; 0, c2, -s2, ty; -s1, c1 * s2, c1 * c2, tz; 0, 0, 0, 1] := by
    ext i j
    fin_cases i <;> fin_cases j <;>
      simp [rotationX, Matrix.mul_apply, Fin.sum_univ_four, Matrix.vecHead, Matrix.vecTail]
  have h3 : (!![c1, s1 * s2, s1 * c2, tx; 0, c2, -s2, ty; -s1, c1 * s2, c1 * c2, tz;
        0, 0, 0, 1] : Matrix _ _ R) * rotationZ c3 s3 =
      !![c1 * c3 + s1 * s2 * s3, c3 * s1 * s2 - c1 * s3, c2 * s1, tx;
         c2 * s3, c2 * c3, -s2, ty;
         c1 * s2 * s3 - c3 * s1, c1 * c3 * s2 + s1 * s3, c1 * c2, tz;
         0, 0, 0, 1] := by
    ext i j
    fin_cases i <;> fin_cases j <;>
      simp [rotationZ, Matrix.mul_apply, Fin.sum_univ_four, Matrix.vecHead,
        Matrix.vecTail] <;> ring
  rw [h1, h2, h3]
  ext i j
  fin_cases i <;> fin_cases j <;>
    simp [columnsToMatrix, scaleMatrix, Matrix.mul_apply, Fin.sum_univ_four,
      Matrix.vecHead, Matrix.vecTail] <;> ring

/-- C10: over the real numbers with the real cosine and sine, for every
translation, scale and rotation, `mat4()` read column by column equals
Translate(t) * Ry(r.y) * Rx(r.x) * Rz(r.z) * Scale(s). -/
theorem mat4_eq_translate_rotate_scale (tc : TransformComponent ℝ) :
    columnsToMatrix (tc.mat4 Real.cos Real.sin) =
      translateMatrix tc.translation *
        rotationY (Real.cos tc.rotation.y) (Real.sin tc.rotation.y) *
        rotationX (Real.cos tc.rotation.x) (Real.sin tc.rotation.x) *
        rotationZ (Real.cos tc.rotation.z) (Real.sin tc.rotation.z) *
        scaleMatrix tc.scale :=
  mat4_eq_product_of_ring Real.cos Real.sin tc

/-- With cosines and sines that satisfy cos^2 + sin^2 = 1 for the three angles,
over any commutative ring, the first three components of columns 0, 1 and 2 of
`mat4` are pairwise orthogonal and have the squares of the scale as squared
lengths. -/
theorem columnDot_mat4_of_ring {R : Type} [CommRing R] (cos sin : R → R)
    (tc : TransformComponent R)
    (hx : cos tc.rotation.x ^ 2 + sin tc.rotation.x ^ 2 = 1)
    (hy : cos tc.rotation.y ^ 2 + sin tc.rotation.y ^ 2 = 1)
    (hz : cos tc.rotation.z ^ 2 + sin tc.rotation.z ^ 2 = 1) :
    columnDot (tc.mat4 cos sin) 0 1 = 0 ∧ columnDot (tc.mat4 cos sin) 0 2 = 0 ∧
    columnDot (tc.mat4 cos sin) 1 2 = 0 ∧
    columnDot (tc.mat4 cos sin) 0 0 = tc.scale.x ^ 2 ∧
    columnDot (tc.mat4 cos sin) 1 1 = tc.scale.y ^ 2 ∧
    columnDot (tc.mat4 cos sin) 2 2 = tc.scale.z ^ 2 := by
  obtain ⟨⟨tx, ty, tz⟩, ⟨sx, sy, sz⟩, ⟨rx, ry, rz⟩⟩ := tc
  simp only [TransformComponent.mat4, columnDot] at *
  generalize cos ry = c1 at *
  generalize sin ry = s1 at *
  generalize cos rx = c2 at *
  generalize sin rx = s2 at *
  generalize cos rz = c3 at *
  generalize sin rz = s3 at *
  simp only [Matrix.cons_val_zero, Matrix.cons_val_one, Matrix.head_cons, Matrix.cons_val_two,
    Matrix.tail_cons]
  refine ⟨?_, ?_, ?_, ?_, ?_, ?_⟩
  · linear_combination sx * sy * (c3 * s3 * (s2 ^ 2 - 1) * hy + c3 * s3 * hx)
  · linear_combination sx * sz * (c2 * s2 * s3) * hy
  · linear_combination sy * sz * (c2 * c3 * s2) * hy
  · linear_combination sx ^ 2 * ((c3 ^ 2 + s2 ^ 2 * s3 ^ 2) * hy + s3 ^ 2 * hx + hz)
  · linear_combination sy ^ 2 * ((c3 ^ 2 * s2 ^ 2 + s3 ^ 2) * hy + c3 ^ 2 * hx + hz)
  · linear_combination sz ^ 2 * (c2 ^ 2 * hy + hx)

/-- With scale (1, 1, 1) the transpose of the upper-left 3x3 block of `mat4` is
its left inverse. -/
theorem upperLeft3_orthogonal_of_ring {R : Type} [CommRing R] (cos sin : R → R)
    (t r : Vec3 R)
    (hx : cos r.x ^ 2 + sin r.x ^ 2 = 1)
    (hy : cos r.y ^ 2 + sin r.y ^ 2 = 1)
    (hz : cos r.z ^ 2 + sin r.z ^ 2 = 1) :
    (upperLeft3 ((⟨t, ⟨1, 1, 1⟩, r⟩ : TransformComponent R).mat4 cos sin)).transpose *
      upperLeft3 ((⟨t, ⟨1, 1, 1⟩, r⟩ : TransformComponent R).mat4 cos sin) = 1 := by
  have h := columnDot_mat4_of_ring cos sin ⟨t, ⟨1, 1, 1⟩, r⟩ hx hy hz
  obtain ⟨h01, h02, h12, h00, h11, h22⟩ := h
  simp only [columnDot, one_pow] at h01 h02 h12 h00 h11 h22
  ext i j
  fin_cases i <;> fin_cases j <;>
    simp [Matrix.mul_apply, Fin.sum_univ_three, upperLeft3, Matrix.transpose_apply,
      Matrix.vecHead, Matrix.vecTail] <;>
    first
    | linear_combination h00 | linear_combination h11 | linear_combination h22
    | linear_combination h01 | linear_combination h02 | linear_combination h12

/-- C12: over the real numbers, for every transform, the first three components
of columns 0, 1 and 2 of `mat4()` are pairwise orthogonal with squared lengths
scale.x^2, scale.y^2 and scale.z^2; with scale (1, 1, 1) the upper-left 3x3
block is an orthogonal matrix for every translation and rotation. -/
theorem mat4_columns_orthogonal (tc : TransformComponent ℝ) :
    columnDot (tc.mat4 Real.cos Real.sin) 0 1 = 0 ∧
    columnDot (tc.mat4 Real.cos Real.sin) 0 2 = 0 ∧
    columnDot (tc.mat4 Real.cos Real.sin) 1 2 = 0 ∧
    columnDot (tc.mat4 Real.cos Real.sin) 0 0 = tc.scale.x ^ 2 ∧
    columnDot (tc.mat4 Real.cos Real.sin) 1 1 = tc.scale.y ^ 2 ∧
    columnDot (tc.mat4 Real.cos Real.sin) 2 2 = tc.scale.z ^ 2 ∧
    ∀ t r : Vec3 ℝ,
      (upperLeft3 ((⟨t, ⟨1, 1, 1⟩, r⟩ : TransformComponent ℝ).mat4 Real.cos
          Real.sin)).transpose *
        upperLeft3 ((⟨t, ⟨1, 1, 1⟩, r⟩ : TransformComponent ℝ).mat4 Real.cos Real.sin) = 1 ∧
      upperLeft3 ((⟨t, ⟨1, 1, 1⟩, r⟩ : TransformComponent ℝ).mat4 Real.cos Real.sin) *
        (upperLeft3 ((⟨t, ⟨1, 1, 1⟩, r⟩ : TransformComponent ℝ).mat4 Real.cos
          Real.sin)).transpose = 1 := by
  have h := columnDot_mat4_of_ring Real.cos Real.sin tc (Real.cos_sq_add_sin_sq _)
    (Real.cos_sq_add_sin_sq _) (Real.cos_sq_add_sin_sq _)
  refine ⟨h.1, h.2.1, h.2.2.1, h.2.2.2.1, h.2.2.2.2.1, h.2.2.2.2.2, fun t r => ?_⟩
  have hleft := upperLeft3_orthogonal_of_ring Real.cos Real.sin t r
    (Real.cos_sq_add_sin_sq _) (Real.cos_sq_add_sin_sq _) (Real.cos_sq_add_sin_sq _)
  exact ⟨hleft, Matrix.mul_eq_one_comm.mp hleft⟩

/-! ### `EveGameObject::createGameObject` -/

namespace EveGameObject

/-- The static counter after `k` calls is `k` modulo 2^32. -/
theorem counterAfter_eq (k : Nat) : counterAfter k = k % 2 ^ 32 := by
  induction k with
  | zero => rfl
  | succ k ih =>
    simp only [counterAfter, createGameObject, ih]
    omega

/-- C11: the counter of `createGameObject` starts at 0 and every call leaves the
value the next call reads; the call number `k` (from 0) returns an object whose
`getId()` is `k mod 2^32`; two different calls among the first 2^32 return
different ids. -/
theorem createGameObject_ids (k i j : Nat) (hi : i < 2 ^ 32) (hj : j < 2 ^ 32)
    (hne : i ≠ j) :
    counterAfter 0 = 0 ∧
    (createGameObject (counterAfter k)).2 = counterAfter (k + 1) ∧
    (nthCreated k).getId = k % 2 ^ 32 ∧
    (nthCreated i).getId ≠ (nthCreated j).getId := by
  refine ⟨rfl, rfl, ?_, ?_⟩
  · simp [nthCreated, createGameObject, getId, counterAfter_eq]
  · simp only [nthCreated, createGameObject, getId, counterAfter_eq]
    rw [Nat.mod_eq_of_lt hi, Nat.mod_eq_of_lt hj]
    exact hne

/-- C11 at the calls number 5, 3 and 7. -/
theorem createGameObject_ids_witness :
    (nthCreated 5).getId = 5 ∧ (nthCreated 3).getId ≠ (nthCreated 7).getId :=
  have h := createGameObject_ids 5 3 7 (by norm_num) (by norm_num) (by decide)
  ⟨h.2.2.1, h.2.2.2⟩

end EveGameObject

/-! ### `eve_descriptors.cpp` -/

/-- C13: `EveDescriptorWriter::build` returns false exactly when
`allocateDescriptor` reports failure, which is exactly when the driver call does
not give `VK_SUCCESS`; then the writer with its pending writes is unchanged and
`vkUpdateDescriptorSets` is not called.  When it returns true, `set` is the
allocated descriptor set, the pending writes are the previous ones with only
`dstSet` replaced by it, and `vkUpdateDescriptorSets` is called once with them. -/
theorem descriptorWriter_build_spec (vkAllocateDescriptorSets : Nat → Nat → Int × Nat)
    (self : EveDescriptorWriter) (set : Nat) (vkUpdates : List (List VkWriteDescriptorSet)) :
    ((self.build vkAllocateDescriptorSets set vkUpdates).1 = false ↔
      (EveDescriptorPool.allocateDescriptor vkAllocateDescriptorSets self.setLayout set).1 =
        false) ∧
    ((EveDescriptorPool.allocateDescriptor vkAllocateDescriptorSets self.setLayout set).1 =
        false ↔
      (vkAllocateDescriptorSets self.setLayout set).1 ≠ VK_SUCCESS) ∧
    ((self.build vkAllocateDescriptorSets set vkUpdates).1 = false →
      (self.build vkAllocateDescriptorSets set vkUpdates).2.1 = self ∧
      (self.build vkAllocateDescriptorSets set vkUpdates).2.2.2 = vkUpdates) ∧
    ((self.build vkAllocateDescriptorSets set vkUpdates).1 = true →
      (self.build vkAllocateDescriptorSets set vkUpdates).2.2.1 =
        (vkAllocateDescriptorSets self.setLayout set).2 ∧
      (self.build vkAllocateDescriptorSets set vkUpdates).2.1.setLayout = self.setLayout ∧
      (self.build vkAllocateDescriptorSets set vkUpdates).2.1.writes =
        self.writes.map (fun write =>
          { write with dstSet := (self.build vkAllocateDescriptorSets set vkUpdates).2.2.1 }) ∧
      (∀ write ∈ (self.build vkAllocateDescriptorSets set vkUpdates).2.1.writes,
        write.dstSet = (self.build vkAllocateDescriptorSets set vkUpdates).2.2.1) ∧
      (self.build vkAllocateDescriptorSets set vkUpdates).2.2.2 =
        vkUpdates ++ [(self.build vkAllocateDescriptorSets set vkUpdates).2.1.writes]) := by
  unfold EveDescriptorWriter.build EveDescriptorPool.allocateDescriptor
  by_cases hres : (vkAllocateDescriptorSets self.setLayout set).1 = VK_SUCCESS
  · simp [hres, EveDescriptorWriter.overwrite]
  · simp [hres]

/-- C14: when the binding number is not yet in the builder, `addBinding` succeeds,
stores under that key a layout binding whose binding, descriptorType,
descriptorCount and stageFlags are the arguments, leaves the entry of every
other key unchanged and makes the number of bindings one more. -/
theorem addBinding_spec (self : EveDescriptorSetLayout.Builder)
    (binding descriptorType stageFlags count : Nat) (hfree : binding ∉ self.bindings) :
    ∃ after : EveDescriptorSetLayout.Builder,
      self.addBinding binding descriptorType stageFlags count = some after ∧
      (∃ layoutBinding, after.bindings.lookup binding = some layoutBinding ∧
        layoutBinding.binding = binding ∧ layoutBinding.descriptorType = descriptorType ∧
        layoutBinding.descriptorCount = count ∧ layoutBinding.stageFlags = stageFlags) ∧
      (∀ key, key ≠ binding → after.bindings.lookup key = self.bindings.lookup key) ∧
      after.bindings.entries.length = self.bindings.entries.length + 1 := by
  refine ⟨⟨self.bindings.insert binding
      { binding := binding
        descriptorType := descriptorType
        descriptorCount := count
        stageFlags := stageFlags }⟩, ?_, ?_, ?_, ?_⟩
  · simp [EveDescriptorSetLayout.Builder.addBinding, hfree]
  · exact ⟨_, AList.lookup_insert _, rfl, rfl, rfl, rfl⟩
  · intro key hkey
    exact AList.lookup_insert_ne hkey
  · rw [AList.insert_entries_of_neg hfree, List.length_cons]

/-- C14 on a builder that holds binding 0: adding binding 1 succeeds and gives
two bindings, binding 0 as before. -/
theorem addBinding_spec_witness :
    (1 : Nat) ∉ (EveDescriptorSetLayout.Builder.mk
      (AList.singleton 0 { descriptorCount := 1 })).bindings ∧
    ∃ after : EveDescriptorSetLayout.Builder,
      (EveDescriptorSetLayout.Builder.mk
        (AList.singleton 0 { descriptorCount := 1 })).addBinding 1 6 17 32 = some after ∧
      after.bindings.lookup 0 = some { descriptorCount := 1 } ∧
      after.bindings.entries.length = 2 :=
  have hfree : (1 : Nat) ∉ (EveDescriptorSetLayout.Builder.mk
      (AList.singleton 0 { descriptorCount := 1 })).bindings := by decide
  ⟨hfree,
    (addBinding_spec ⟨AList.singleton 0 { descriptorCount := 1 }⟩ 1 6 17 32 hfree).imp
      (fun _ h => ⟨h.1, (h.2.2.1 0 (by decide)).trans (by decide), h.2.2.2⟩)⟩

end eve
